import Mathlib

/-!
Verification of the dedup-rs duplicate-file finder (src/main.rs).

The pipeline in `main` is modelled as pure functions over a snapshot of the
filesystem.  A regular file is an `FSFile`: a path identifier, its byte
content (`List Nat`), and three flags recording whether the metadata read at
scan time and the content reads at the partial-hash and full-hash stages
succeed (the Rust code surfaces each of those failures as an `io::Result`
error for that one file).  BLAKE3 digests are modelled as the byte sequence
fed to the hasher itself: the claims and the spec treat the cryptographic
hash as collision-free, under which idealization digest equality is exactly
equality of the hashed bytes.  Rust `HashMap` grouping (`entry().or_default()
.push(...)` followed by iteration) is modelled by `groupPairs`: one entry per
distinct key, each holding the values inserted for that key in insertion
order; iteration order of a `HashMap` is unspecified, so every claim below is
stated in an order-insensitive way.  `u64` counters are modelled as `Nat`
(the quantities involved are far below `2^64`, and the source uses saturating
arithmetic for the one subtraction/multiplication it performs).  Wall-clock
timing fields of the Rust `Metrics` struct are not modelled.
-/

set_option maxRecDepth 40000

namespace DedupRs

open List (Perm)

/-- A snapshot of one directory entry reachable under the root.  `isFile`
mirrors `e.file_type().is_file()`; `scanOk` is true when the metadata read in
`group_by_size` (and later `std::fs::metadata` calls) succeeds; `sampleOk` is
true when every open/seek/read performed by `calculate_partial_hash`
succeeds; `fullOk` likewise for `calculate_full_hash`. -/
structure FSFile where
  path : Nat
  content : List Nat
  isFile : Bool
  scanOk : Bool
  sampleOk : Bool
  fullOk : Bool
deriving DecidableEq

/-- Models building a Rust `HashMap<K, Vec<V>>` by `map.entry(k).or_default()
.push(v)` over a list of pairs and then iterating its entries: one entry per
distinct key, carrying the values pushed for that key in insertion order. -/
def groupPairs {K V : Type} [DecidableEq K] (ps : List (K × V)) : List (K × List V) :=
  (ps.map Prod.fst).dedup.map fun k => (k, (ps.filter fun p => decide (p.1 = k)).map Prod.snd)

/-- `const PARTIAL_HASH_SIZE: usize = 4096`. -/
def PARTIAL_HASH_SIZE : Nat := 4096

/-- `fn calculate_partial_hash`: open the file, read up to `PARTIAL_HASH_SIZE`
bytes from the start into `head_buf` (truncated to the bytes actually read);
if the file length exceeds the head bytes read, seek to `End(-tail_size)`
with `tail_size = min(PARTIAL_HASH_SIZE, len - head_read)` and read the tail;
hash `head_buf` then `tail_buf` in one hasher.  The digest is modelled as the
hashed byte sequence itself (`partialDigest`, a function of the content
alone); an I/O failure anywhere in `calculate_partial_hash` is `none`. -/
def partialDigest (content : List Nat) : List Nat :=
  let len := content.length
  let head_buf := content.take PARTIAL_HASH_SIZE
  let head_read := head_buf.length
  let tail_buf :=
    if head_read < len then
      let tail_size := min PARTIAL_HASH_SIZE (len - head_read)
      content.drop (len - tail_size)
    else []
  head_buf ++ tail_buf

def calculate_partial_hash (f : FSFile) : Option (List Nat) :=
  if f.sampleOk then some (partialDigest f.content) else none

/-- `fn calculate_full_hash`: stream the whole content through the hasher in
64 KB chunks; the digest is modelled as the full content, a read failure as
`none`. -/
def calculate_full_hash (f : FSFile) : Option (List Nat) :=
  if f.fullOk then some f.content else none

/-- The `(len, path)` records collected inside `group_by_size`: walk entries
that are `Ok`, are regular files, whose metadata reads succeed, and whose
length is positive.  Walk errors (including a nonexistent root) are dropped
by `filter_map(|e| e.ok())`. -/
def scanRecords (entries : List (Except Unit FSFile)) : List (Nat × FSFile) :=
  ((entries.filterMap Except.toOption).filter fun f => f.isFile).filterMap fun f =>
    if f.scanOk then
      if 0 < f.content.length then some (f.content.length, f) else none
    else none

/-- `fn group_by_size`: fold the collected `(len, path)` records into a
`HashMap<u64, Vec<PathBuf>>`. -/
def group_by_size (entries : List (Except Unit FSFile)) : List (Nat × List FSFile) :=
  groupPairs (scanRecords entries)

/-- `main`: `size_groups.into_iter().filter(|(_, paths)| paths.len() > 1)`. -/
def potentialDuplicates (entries : List (Except Unit FSFile)) : List (Nat × List FSFile) :=
  (group_by_size entries).filter fun p => decide (1 < p.2.length)

/-- The `(partial_hash, path)` pairs produced inside `filter_by_partial_hash`
by flat-mapping over the size groups and skipping files whose partial hash
errors. -/
def partialPairs (size_groups : List (Nat × List FSFile)) : List (List Nat × FSFile) :=
  size_groups.flatMap fun p =>
    p.2.filterMap fun f => (calculate_partial_hash f).map fun h => (h, f)

/-- `fn filter_by_partial_hash`: group the pairs by digest and retain only
groups with more than one file. -/
def filter_by_partial_hash (size_groups : List (Nat × List FSFile)) :
    List (List Nat × List FSFile) :=
  (groupPairs (partialPairs size_groups)).filter fun p => decide (1 < p.2.length)

/-- The `(full_hash, path)` pairs produced inside `confirm_with_full_hash`
from the flattened paths of the partial-hash groups, skipping files whose
full hash errors. -/
def fullPairs (phg : List (List Nat × List FSFile)) : List (List Nat × FSFile) :=
  (phg.flatMap fun p => p.2).filterMap fun f =>
    (calculate_full_hash f).map fun h => (h, f)

/-- `fn confirm_with_full_hash`: group by full digest, take the values, keep
groups with more than one file. -/
def confirm_with_full_hash (phg : List (List Nat × List FSFile)) : List (List FSFile) :=
  ((groupPairs (fullPairs phg)).map fun p => p.2).filter fun v => decide (1 < v.length)

/-- The partial-hash groups of a whole run (`filter_by_partial_hash` applied
to the candidate size groups of `main`). -/
def partialGroupsOf (entries : List (Except Unit FSFile)) : List (List Nat × List FSFile) :=
  filter_by_partial_hash (potentialDuplicates entries)

/-- The final `duplicate_groups` of a whole run. -/
def dedupGroups (entries : List (Except Unit FSFile)) : List (List FSFile) :=
  confirm_with_full_hash (partialGroupsOf entries)

/-- The count/byte fields of the Rust `Metrics` struct (the four wall-clock
timing fields are not modelled).  The source field `bytes_hashed_partial` is
called `partial_bytes_hashed` here. -/
structure Metrics where
  total_files : Nat
  total_bytes : Nat
  candidate_groups : Nat
  partial_groups : Nat
  duplicate_groups : Nat
  duplicate_files : Nat
  reclaimable_bytes : Nat
  partial_bytes_hashed : Nat
  bytes_hashed_full : Nat
deriving DecidableEq

/-- The per-group contribution to `reclaimable_bytes` in `main`: `0` for an
empty group, otherwise the size of the group's first member (`0` when its
metadata read fails, mirroring `unwrap_or(0)`) times one less than the group
cardinality (`saturating_sub`/`saturating_mul` are exact on `Nat`). -/
def groupReclaimable (g : List FSFile) : Nat :=
  match g with
  | [] => 0
  | f :: _ => (if f.scanOk then f.content.length else 0) * (g.length - 1)

/-- The body of `fn main` (excluding CLI parsing, timing, progress rendering
and output writing): run the three stages and compute the metrics exactly as
`main` does. -/
def dedupRun (entries : List (Except Unit FSFile)) : List (List FSFile) × Metrics :=
  let size_groups := group_by_size entries
  let total_files := (size_groups.map fun p => p.2.length).sum
  let total_bytes := (size_groups.map fun p => p.1 * p.2.length).sum
  let candidate_groups := (potentialDuplicates entries).length
  let partial_bytes_hashed :=
    ((potentialDuplicates entries).map fun p =>
      min p.1 (2 * PARTIAL_HASH_SIZE) * p.2.length).sum
  let partial_groups := (partialGroupsOf entries).length
  let full_bytes :=
    (((partialGroupsOf entries).flatMap fun p => p.2).filterMap fun f =>
      if f.scanOk then some f.content.length else none).sum
  let groups := dedupGroups entries
  let duplicate_files := (groups.map fun g => g.length).sum
  let reclaimable := (groups.map groupReclaimable).sum
  (groups,
    ⟨total_files, total_bytes, candidate_groups, partial_groups, groups.length,
      duplicate_files, reclaimable, partial_bytes_hashed, full_bytes⟩)

/-- `fn main() -> io::Result<()>`: within the modelled core (everything up to
output rendering) no error is ever propagated, so the run always returns
`Except.ok`; the only fallible operations of `main` itself are the excluded
output-writing calls. -/
def mainRun (entries : List (Except Unit FSFile)) :
    Except Unit (List (List FSFile) × Metrics) :=
  Except.ok (dedupRun entries)

/-- Two files land in one and the same final DuplicateGroup of the run. -/
def inSameDuplicateGroup (entries : List (Except Unit FSFile)) (f g : FSFile) : Prop :=
  ∃ G, G ∈ dedupGroups entries ∧ f ∈ G ∧ g ∈ G

instance : Inhabited FSFile := ⟨⟨0, [], false, false, false, false⟩⟩

/-- The 8193-byte all-zero content. -/
def contentA : List Nat := List.replicate 8193 0

/-- 8193 bytes: 4096 zeros, a single 1, then 4096 zeros.  Same first 4096
and last 4096 bytes as `contentA`. -/
def contentB : List Nat := List.replicate 4096 0 ++ 1 :: List.replicate 4096 0

/-- The 8194-byte all-zero content. -/
def contentC : List Nat := List.replicate 8194 0

/-- The head-plus-tail sample (8192 zero bytes) shared by `contentA`,
`contentB` and `contentC`. -/
def digestAB : List Nat := List.replicate 8192 0

/-- Concrete input: two identical files of 8193 bytes (all zeros). -/
def fileA1 : FSFile := ⟨0, contentA, true, true, true, true⟩

/-- Second copy of the 8193-byte all-zero file. -/
def fileA2 : FSFile := ⟨1, contentA, true, true, true, true⟩

/-- Concrete input: 8193 bytes, same first 4096 and last 4096 bytes as
`fileA1` but a different byte in the middle. -/
def fileB1 : FSFile := ⟨2, contentB, true, true, true, true⟩

/-- Second copy of `fileB1`. -/
def fileB2 : FSFile := ⟨3, contentB, true, true, true, true⟩

/-- Concrete input: two identical files of 8194 bytes (all zeros): same head
and tail samples as `fileA1` but a different size. -/
def fileC1 : FSFile := ⟨4, contentC, true, true, true, true⟩

/-- Second copy of the 8194-byte all-zero file. -/
def fileC2 : FSFile := ⟨5, contentC, true, true, true, true⟩

/-- Concrete one-byte files: two copies of `[0]` and two copies of `[1]`. -/
def fileS1 : FSFile := ⟨6, [0], true, true, true, true⟩

/-- Second copy of `[0]`. -/
def fileS2 : FSFile := ⟨7, [0], true, true, true, true⟩

/-- A one-byte file `[1]`. -/
def fileS3 : FSFile := ⟨8, [1], true, true, true, true⟩

/-- Second copy of `[1]`. -/
def fileS4 : FSFile := ⟨9, [1], true, true, true, true⟩

/-- Input refuting the group-count monotonic-shrink claim: the size-8193
candidate group splits under the full hash (A-pair versus B-pair) while the
two one-byte candidate-size files of each content pair share one size group,
so candidate, partial and duplicate group counts are 2, 3 and 4. -/
def shrinkCexEntries : List (Except Unit FSFile) :=
  [Except.ok fileA1, Except.ok fileA2, Except.ok fileB1, Except.ok fileB2,
   Except.ok fileS1, Except.ok fileS2, Except.ok fileS3, Except.ok fileS4]

/-- Input for the digest-only-grouping observation: two duplicate pairs of
different sizes (8193 and 8194 bytes) whose head and tail samples agree. -/
def mergeEntries : List (Except Unit FSFile) :=
  [Except.ok fileA1, Except.ok fileA2, Except.ok fileC1, Except.ok fileC2]

/-- A coding of the concrete digests appearing in the example inputs into
small numbers; it lets the grouping maps be evaluated without element-wise
traversal of the multi-kilobyte contents. -/
def keyCode (l : List Nat) : Nat :=
  if l.length = 8194 then 2
  else if l.length = 1 then (if l.head? = some 1 then 3 else 4)
  else if (l.drop 4096).head? = some 1 then 1 else 0

example :
    dedupGroups [Except.ok ⟨0, [7, 7], true, true, true, true⟩,
                 Except.ok ⟨1, [7, 7], true, true, true, true⟩]
      = [[⟨0, [7, 7], true, true, true, true⟩, ⟨1, [7, 7], true, true, true, true⟩]] := by
  decide

example :
    (dedupRun [Except.ok ⟨0, [7, 7], true, true, true, true⟩,
               Except.ok ⟨1, [7, 7], true, true, true, true⟩,
               Except.ok ⟨2, [5, 5], true, true, true, true⟩]).2
      = ⟨3, 6, 1, 1, 1, 2, 2, 6, 4⟩ := by
  decide

section GroupPairsLemmas

variable {K V : Type} [DecidableEq K]

theorem mem_groupPairs {ps : List (K × V)} {k : K} {g : List V} :
    (k, g) ∈ groupPairs ps ↔
      k ∈ ps.map Prod.fst ∧ g = (ps.filter fun p => decide (p.1 = k)).map Prod.snd := by
  unfold groupPairs
  constructor
  · intro h
    rcases List.mem_map.1 h with ⟨k1, hk1, he⟩
    injection he with h1 h2
    subst h1; subst h2
    exact ⟨List.mem_dedup.1 hk1, rfl⟩
  · rintro ⟨hk, rfl⟩
    exact List.mem_map.2 ⟨k, List.mem_dedup.2 hk, rfl⟩

theorem mem_of_mem_groupPairs {ps : List (K × V)} {k : K} {g : List V} {v : V}
    (hg : (k, g) ∈ groupPairs ps) (hv : v ∈ g) : (k, v) ∈ ps := by
  rcases mem_groupPairs.1 hg with ⟨-, rfl⟩
  rcases List.mem_map.1 hv with ⟨p, hp, rfl⟩
  rcases List.mem_filter.1 hp with ⟨hmem, hkey⟩
  have hk : p.1 = k := of_decide_eq_true hkey
  cases p
  cases hk
  exact hmem

theorem groupPairs_mem_of_mem {ps : List (K × V)} {k : K} {v : V} (h : (k, v) ∈ ps) :
    ∃ g, (k, g) ∈ groupPairs ps ∧ v ∈ g := by
  refine ⟨_, mem_groupPairs.2 ⟨List.mem_map.2 ⟨(k, v), h, rfl⟩, rfl⟩, ?_⟩
  exact List.mem_map.2 ⟨(k, v), List.mem_filter.2 ⟨h, by simp⟩, rfl⟩

theorem length_of_mem_groupPairs {ps : List (K × V)} {k : K} {g : List V}
    (hg : (k, g) ∈ groupPairs ps) :
    g.length = ps.countP fun p => decide (p.1 = k) := by
  rcases mem_groupPairs.1 hg with ⟨-, rfl⟩
  simp [List.countP_eq_length_filter]

theorem groupPairs_key_unique {ps : List (K × V)} {k : K} {g1 g2 : List V}
    (h1 : (k, g1) ∈ groupPairs ps) (h2 : (k, g2) ∈ groupPairs ps) : g1 = g2 := by
  rcases mem_groupPairs.1 h1 with ⟨-, rfl⟩
  rcases mem_groupPairs.1 h2 with ⟨-, rfl⟩
  rfl

theorem dedup_filter (q : K → Bool) (l : List K) :
    (l.filter q).dedup = l.dedup.filter q := by
  induction l with
  | nil => rfl
  | cons a l ih =>
    cases hq : q a with
    | true =>
      rw [List.filter_cons_of_pos hq]
      by_cases hm : a ∈ l
      · rw [List.dedup_cons_of_mem (List.mem_filter.2 ⟨hm, hq⟩), ih,
          List.dedup_cons_of_mem hm]
      · have hnf : a ∉ l.filter q := fun h => hm (List.mem_filter.1 h).1
        rw [List.dedup_cons_of_not_mem hnf, ih, List.dedup_cons_of_not_mem hm,
          List.filter_cons_of_pos hq]
    | false =>
      rw [List.filter_cons_of_neg (by simp [hq])]
      by_cases hm : a ∈ l
      · rw [ih, List.dedup_cons_of_mem hm]
      · rw [ih, List.dedup_cons_of_not_mem hm, List.filter_cons_of_neg (by simp [hq])]

theorem groupPairs_filter_key (q : K → Bool) (ps : List (K × V)) :
    (groupPairs ps).filter (fun p => q p.1) = groupPairs (ps.filter fun p => q p.1) := by
  have hkeys : ((ps.filter fun p => q p.1).map Prod.fst).dedup
      = ((ps.map Prod.fst).dedup).filter q := by
    rw [← dedup_filter]
    congr 1
    rw [List.filter_map]
    rfl
  unfold groupPairs
  rw [hkeys, List.filter_map]
  apply List.map_congr_left
  intro k hk
  have hq : q k = true := (List.mem_filter.1 hk).2
  have hfil : (ps.filter fun p => q p.1).filter (fun p => decide (p.1 = k))
      = ps.filter fun p => decide (p.1 = k) := by
    rw [List.filter_filter]
    apply List.filter_congr
    intro p _
    by_cases hpk : p.1 = k
    · simp [hpk, hq]
    · simp [hpk]
  rw [hfil]

theorem flatten_map_groups_perm (ks : List K) (ps : List (K × V))
    (hnd : ks.Nodup) (hcov : ∀ p ∈ ps, p.1 ∈ ks) :
    (ks.map fun k => (ps.filter fun p => decide (p.1 = k)).map Prod.snd).flatten
      |>.Perm (ps.map Prod.snd) := by
  induction ks generalizing ps with
  | nil =>
    have hnil : ps = [] := by
      cases ps with
      | nil => rfl
      | cons p ps => exact absurd (hcov p (List.mem_cons_self p ps)) (List.not_mem_nil _)
    subst hnil
    rfl
  | cons k ks ih =>
    rcases List.nodup_cons.1 hnd with ⟨hknotin, hndks⟩
    rw [List.map_cons, List.flatten_cons]
    have hmaps : ks.map (fun k2 => (ps.filter fun p => decide (p.1 = k2)).map Prod.snd)
        = ks.map (fun k2 =>
            ((ps.filter fun p => !decide (p.1 = k)).filter
              fun p => decide (p.1 = k2)).map Prod.snd) := by
      apply List.map_congr_left
      intro k2 hk2
      congr 1
      rw [List.filter_filter]
      apply (List.filter_congr ?_).symm
      intro p _
      by_cases hpk : p.1 = k2
      · have hk2k : ¬ k2 = k := fun h0 => hknotin (h0 ▸ hk2)
        simp [hpk, hk2k]
      · simp [hpk]
    have hcov2 : ∀ p ∈ ps.filter fun p => !decide (p.1 = k), p.1 ∈ ks := by
      intro p hp
      rcases List.mem_filter.1 hp with ⟨hmem, hne⟩
      rcases List.mem_cons.1 (hcov p hmem) with h | h
      · exact absurd h (by simpa using hne)
      · exact h
    have ihp := ih (ps.filter fun p => !decide (p.1 = k)) hndks hcov2
    rw [hmaps]
    refine Perm.trans (Perm.append_left _ ihp) ?_
    rw [← List.map_append]
    exact Perm.map _ (List.filter_append_perm _ ps)

theorem flatten_groupPairs_perm (ps : List (K × V)) :
    ((groupPairs ps).map Prod.snd).flatten.Perm (ps.map Prod.snd) := by
  unfold groupPairs
  rw [List.map_map]
  exact flatten_map_groups_perm _ _ (List.nodup_dedup _)
    (fun p hp => List.mem_dedup.2 (List.mem_map.2 ⟨p, hp, rfl⟩))

theorem survivors_perm (ps : List (K × V)) (q : K → Bool) :
    (((groupPairs ps).filter fun p => q p.1).map Prod.snd).flatten.Perm
      ((ps.filter fun p => q p.1).map Prod.snd) := by
  rw [groupPairs_filter_key]
  exact flatten_groupPairs_perm _

theorem filter_big_eq_filter_key (ps : List (K × V)) :
    (groupPairs ps).filter (fun p => decide (1 < p.2.length))
      = (groupPairs ps).filter
          (fun p => decide (1 < ps.countP fun r => decide (r.1 = p.1))) := by
  apply List.filter_congr
  intro p hp
  have hlen : p.2.length = ps.countP fun r => decide (r.1 = p.1) := by
    cases p
    exact length_of_mem_groupPairs hp
  rw [hlen]

theorem big_survivors_perm (ps : List (K × V)) :
    (((groupPairs ps).filter fun p => decide (1 < p.2.length)).map Prod.snd).flatten.Perm
      ((ps.filter fun p =>
        decide (1 < ps.countP fun r => decide (r.1 = p.1))).map Prod.snd) := by
  rw [filter_big_eq_filter_key]
  exact survivors_perm ps fun k => decide (1 < ps.countP fun r => decide (r.1 = k))

theorem big_flatten_perm_of_perm {ps1 ps2 : List (K × V)} (h : ps1.Perm ps2) :
    (((groupPairs ps1).filter fun p => decide (1 < p.2.length)).map Prod.snd).flatten.Perm
      ((((groupPairs ps2).filter fun p => decide (1 < p.2.length)).map Prod.snd).flatten) := by
  refine (big_survivors_perm ps1).trans (Perm.trans ?_ (big_survivors_perm ps2).symm)
  refine Perm.map _ ?_
  have heq : ps2.filter (fun p => decide (1 < ps1.countP fun r => decide (r.1 = p.1)))
      = ps2.filter (fun p => decide (1 < ps2.countP fun r => decide (r.1 = p.1))) := by
    apply List.filter_congr
    intro p _
    rw [h.countP_eq]
  exact heq ▸ h.filter _

end GroupPairsLemmas

theorem two_le_length_of_two_mem {α : Type} {l : List α} {a b : α}
    (ha : a ∈ l) (hb : b ∈ l) (hne : a ≠ b) : 2 ≤ l.length := by
  match l with
  | [] => cases ha
  | [x] =>
    rw [List.mem_singleton] at ha hb
    exact absurd (ha.trans hb.symm) hne
  | x :: y :: t => simp only [List.length_cons]; omega

theorem two_le_countP_of_two_mem {α : Type} {l : List α} {p : α → Bool} {a b : α}
    (ha : a ∈ l) (hb : b ∈ l) (hne : a ≠ b) (hpa : p a = true) (hpb : p b = true) :
    2 ≤ l.countP p := by
  rw [List.countP_eq_length_filter]
  exact two_le_length_of_two_mem (List.mem_filter.2 ⟨ha, hpa⟩)
    (List.mem_filter.2 ⟨hb, hpb⟩) hne

theorem toOption_eq_some {e : Except Unit FSFile} {f : FSFile}
    (h : Except.toOption e = some f) : e = Except.ok f := by
  cases e with
  | ok a => simp [Except.toOption] at h; rw [h]
  | error a => simp [Except.toOption] at h

theorem mem_scanRecords {entries : List (Except Unit FSFile)} {s : Nat} {f : FSFile} :
    (s, f) ∈ scanRecords entries ↔
      Except.ok f ∈ entries ∧ f.isFile = true ∧ f.scanOk = true ∧
        0 < f.content.length ∧ s = f.content.length := by
  unfold scanRecords
  rw [List.mem_filterMap]
  constructor
  · rintro ⟨g, hg, hsome⟩
    rcases List.mem_filter.1 hg with ⟨hmem, hfile⟩
    rcases List.mem_filterMap.1 hmem with ⟨e, he, hto⟩
    by_cases h1 : g.scanOk = true
    · by_cases h2 : 0 < g.content.length
      · simp only [h1, h2, if_true, Option.some.injEq, Prod.mk.injEq] at hsome
        rcases hsome with ⟨hs, hf⟩
        subst hf
        exact ⟨toOption_eq_some hto ▸ he, hfile, h1, h2, hs.symm⟩
      · simp [h1, h2] at hsome
    · simp [h1] at hsome
  · rintro ⟨hmem, hfile, hok, hpos, hs⟩
    refine ⟨f, List.mem_filter.2 ⟨List.mem_filterMap.2 ⟨Except.ok f, hmem, rfl⟩, hfile⟩, ?_⟩
    simp [hok, hpos, hs]

theorem mem_potentialDuplicates {entries : List (Except Unit FSFile)}
    {s : Nat} {G : List FSFile} :
    (s, G) ∈ potentialDuplicates entries ↔
      (s, G) ∈ group_by_size entries ∧ 1 < G.length := by
  unfold potentialDuplicates
  rw [List.mem_filter]
  simp

theorem calculate_full_hash_eq_some {f : FSFile} {h : List Nat} :
    calculate_full_hash f = some h ↔ f.fullOk = true ∧ h = f.content := by
  unfold calculate_full_hash
  by_cases hok : f.fullOk = true
  · simp [hok, eq_comm]
  · simp [hok]

theorem mem_partialPairs {sg : List (Nat × List FSFile)} {h : List Nat} {f : FSFile} :
    (h, f) ∈ partialPairs sg ↔
      ∃ s G, (s, G) ∈ sg ∧ f ∈ G ∧ calculate_partial_hash f = some h := by
  unfold partialPairs
  rw [List.mem_flatMap]
  constructor
  · rintro ⟨p, hp, hmem⟩
    rcases List.mem_filterMap.1 hmem with ⟨g, hg, hsome⟩
    rcases Option.map_eq_some'.1 hsome with ⟨a, hcp, hpair⟩
    injection hpair with h1 h2
    subst h1; subst h2
    exact ⟨p.1, p.2, hp, hg, hcp⟩
  · rintro ⟨s, G, hsg, hfG, hcp⟩
    exact ⟨(s, G), hsg, List.mem_filterMap.2 ⟨f, hfG, by rw [hcp]; rfl⟩⟩

theorem mem_fullPairs {phg : List (List Nat × List FSFile)} {h : List Nat} {f : FSFile} :
    (h, f) ∈ fullPairs phg ↔
      (∃ k G, (k, G) ∈ phg ∧ f ∈ G) ∧ f.fullOk = true ∧ h = f.content := by
  unfold fullPairs
  rw [List.mem_filterMap]
  constructor
  · rintro ⟨g, hg, hsome⟩
    rcases Option.map_eq_some'.1 hsome with ⟨a, hcp, hpair⟩
    injection hpair with h1 h2
    subst h1; subst h2
    rcases List.mem_flatMap.1 hg with ⟨p, hp, hmem⟩
    rcases calculate_full_hash_eq_some.1 hcp with ⟨hok, ha⟩
    exact ⟨⟨p.1, p.2, hp, hmem⟩, hok, ha⟩
  · rintro ⟨⟨k, G, hkG, hfG⟩, hok, hcontent⟩
    refine ⟨f, List.mem_flatMap.2 ⟨(k, G), hkG, hfG⟩, ?_⟩
    rw [calculate_full_hash_eq_some.2 ⟨hok, hcontent⟩]
    rfl

theorem mem_confirm_with_full_hash {phg : List (List Nat × List FSFile)}
    {G : List FSFile} :
    G ∈ confirm_with_full_hash phg ↔
      ∃ h, (h, G) ∈ groupPairs (fullPairs phg) ∧ 1 < G.length := by
  unfold confirm_with_full_hash
  rw [List.mem_filter]
  constructor
  · rintro ⟨hmem, hlen⟩
    rcases List.mem_map.1 hmem with ⟨p, hp, hsnd⟩
    subst hsnd
    exact ⟨p.1, hp, by simpa using hlen⟩
  · rintro ⟨h, hmem, hlen⟩
    exact ⟨List.mem_map.2 ⟨(h, G), hmem, rfl⟩, by simpa using hlen⟩

theorem mem_filter_by_partial_hash {sg : List (Nat × List FSFile)}
    {h : List Nat} {G : List FSFile} :
    (h, G) ∈ filter_by_partial_hash sg ↔
      (h, G) ∈ groupPairs (partialPairs sg) ∧ 1 < G.length := by
  unfold filter_by_partial_hash
  rw [List.mem_filter]
  simp

theorem inSameDuplicateGroup_iff {entries : List (Except Unit FSFile)} {f g : FSFile} :
    inSameDuplicateGroup entries f g ↔
      ∃ h, (h, f) ∈ fullPairs (partialGroupsOf entries) ∧
        (h, g) ∈ fullPairs (partialGroupsOf entries) ∧
        1 < (fullPairs (partialGroupsOf entries)).countP fun p => decide (p.1 = h) := by
  constructor
  · rintro ⟨G, hG, hf, hg⟩
    rcases mem_confirm_with_full_hash.1 hG with ⟨h, hmem, hlen⟩
    refine ⟨h, mem_of_mem_groupPairs hmem hf, mem_of_mem_groupPairs hmem hg, ?_⟩
    rw [← length_of_mem_groupPairs hmem]
    exact hlen
  · rintro ⟨h, hf, hg, hcount⟩
    rcases groupPairs_mem_of_mem hf with ⟨G, hmem, hfG⟩
    have hgG : g ∈ G := by
      rcases mem_groupPairs.1 hmem with ⟨-, rfl⟩
      exact List.mem_map.2 ⟨(h, g), List.mem_filter.2 ⟨hg, by simp⟩, rfl⟩
    refine ⟨G, mem_confirm_with_full_hash.2 ⟨h, hmem, ?_⟩, hfG, hgG⟩
    rw [length_of_mem_groupPairs hmem]
    exact hcount

theorem partialDigest_contentA : partialDigest contentA = digestAB := by
  unfold partialDigest PARTIAL_HASH_SIZE contentA digestAB
  have h1 : min 4096 8193 = 4096 := by omega
  have h2 : min 4096 (8193 - 4096) = 4096 := by omega
  simp only [List.length_replicate, List.take_replicate, List.drop_replicate,
    List.length_take, h1, h2]
  norm_num

theorem partialDigest_contentC : partialDigest contentC = digestAB := by
  unfold partialDigest PARTIAL_HASH_SIZE contentC digestAB
  have h1 : min 4096 8194 = 4096 := by omega
  have h2 : min 4096 (8194 - 4096) = 4096 := by omega
  simp only [List.length_replicate, List.take_replicate, List.drop_replicate,
    List.length_take, h1, h2]
  norm_num

theorem partialDigest_contentB : partialDigest contentB = digestAB := by
  unfold partialDigest PARTIAL_HASH_SIZE contentB digestAB
  simp only [List.length_append, List.length_replicate, List.length_cons]
  norm_num
  rw [List.drop_append_eq_append_drop]
  simp only [List.drop_replicate, List.length_replicate]
  norm_num

theorem dedup_map_injOn {K1 K2 : Type} [DecidableEq K1] [DecidableEq K2]
    (c : K1 → K2) (l : List K1)
    (hinj : ∀ a ∈ l, ∀ b ∈ l, c a = c b → a = b) :
    (l.map c).dedup = l.dedup.map c := by
  induction l with
  | nil => rfl
  | cons a l ih =>
    have hinj2 : ∀ x ∈ l, ∀ y ∈ l, c x = c y → x = y := fun x hx y hy h =>
      hinj x (List.mem_cons_of_mem a hx) y (List.mem_cons_of_mem a hy) h
    by_cases hm : a ∈ l
    · have hcm : c a ∈ l.map c := List.mem_map.2 ⟨a, hm, rfl⟩
      rw [List.map_cons, List.dedup_cons_of_mem hcm, ih hinj2, List.dedup_cons_of_mem hm]
    · have hcm : c a ∉ l.map c := by
        intro h
        rcases List.mem_map.1 h with ⟨b, hb, he⟩
        exact hm (hinj b (List.mem_cons_of_mem a hb) a (List.mem_cons_self a l) he ▸ hb)
      rw [List.map_cons, List.dedup_cons_of_not_mem hcm, ih hinj2,
        List.dedup_cons_of_not_mem hm, List.map_cons]

theorem vgroup_map_key {K1 K2 V : Type} [DecidableEq K1] [DecidableEq K2]
    (c : K1 → K2) (ps : List (K1 × V))
    (hinj : ∀ a ∈ ps.map Prod.fst, ∀ b ∈ ps.map Prod.fst, c a = c b → a = b) :
    (groupPairs ps).map Prod.snd
      = (groupPairs (ps.map fun p => (c p.1, p.2))).map Prod.snd := by
  unfold groupPairs
  rw [List.map_map, List.map_map]
  have hkeys : ((ps.map fun p => (c p.1, p.2)).map Prod.fst).dedup
      = ((ps.map Prod.fst).dedup).map c := by
    rw [← dedup_map_injOn c _ hinj, List.map_map, List.map_map]
    rfl
  rw [hkeys, List.map_map]
  apply List.map_congr_left
  intro k hk
  show ((ps.filter fun p => decide (p.1 = k)).map Prod.snd)
      = ((ps.map fun p => (c p.1, p.2)).filter fun q => decide (q.1 = c k)).map Prod.snd
  have hfil : ((ps.map fun p => (c p.1, p.2)).filter fun q => decide (q.1 = c k))
      = (ps.filter fun p => decide (c p.1 = c k)).map fun p => (c p.1, p.2) := by
    rw [List.filter_map]
    rfl
  rw [hfil, List.map_map]
  have hcong : (ps.filter fun p => decide (c p.1 = c k))
      = ps.filter fun p => decide (p.1 = k) := by
    apply List.filter_congr
    intro p hp
    rw [decide_eq_decide]
    constructor
    · intro h
      exact hinj p.1 (List.mem_map.2 ⟨p, hp, rfl⟩) k (List.mem_dedup.1 hk) h
    · intro h
      rw [h]
  rw [hcong]
  rfl

theorem partialPairs_eq (sg : List (Nat × List FSFile)) :
    partialPairs sg = ((sg.map Prod.snd).flatten).filterMap
      fun f => (calculate_partial_hash f).map fun h => (h, f) := by
  unfold partialPairs
  rw [List.flatMap_def, List.filterMap_flatten, List.map_map]
  rfl

theorem fullPairs_eq (phg : List (List Nat × List FSFile)) :
    fullPairs phg = ((phg.map Prod.snd).flatten).filterMap
      fun f => (calculate_full_hash f).map fun h => (h, f) := by
  unfold fullPairs
  rw [List.flatMap_def]

theorem filter_by_partial_hash_values (sg : List (Nat × List FSFile)) :
    (filter_by_partial_hash sg).map Prod.snd
      = ((groupPairs (partialPairs sg)).map Prod.snd).filter
          fun g => decide (1 < g.length) := by
  unfold filter_by_partial_hash
  rw [List.filter_map]
  rfl

theorem confirm_values (phg : List (List Nat × List FSFile)) :
    confirm_with_full_hash phg
      = ((groupPairs (fullPairs phg)).map Prod.snd).filter
          fun g => decide (1 < g.length) := by
  rfl

theorem contentA_len : contentA.length = 8193 := by
  unfold contentA
  rw [List.length_replicate]




theorem contentA_drop : contentA.drop 4096 = List.replicate 4097 0 := by
  unfold contentA
  rw [List.drop_replicate]

theorem kc_contentA : keyCode contentA = 0 := by
  unfold keyCode
  rw [contentA_len, contentA_drop, List.head?_replicate]
  norm_num

theorem kc_zero : keyCode [0] = 4 := by decide



theorem contentB_len : contentB.length = 8193 := by
  unfold contentB
  rw [List.length_append, List.length_replicate, List.length_cons, List.length_replicate]

theorem contentB_drop : contentB.drop 4096 = 1 :: List.replicate 4096 0 := by
  unfold contentB
  rw [List.drop_append_eq_append_drop, List.drop_replicate, List.length_replicate]
  norm_num



theorem kc_contentB : keyCode contentB = 1 := by
  unfold keyCode
  rw [contentB_len, contentB_drop]
  norm_num

theorem kc_one : keyCode [1] = 3 := by decide



theorem contentC_len : contentC.length = 8194 := by
  unfold contentC
  rw [List.length_replicate]



theorem kc_contentC : keyCode contentC = 2 := by
  unfold keyCode
  rw [contentC_len, if_pos rfl]



theorem digestAB_len : digestAB.length = 8192 := by
  unfold digestAB
  rw [List.length_replicate]

theorem digestAB_drop : digestAB.drop 4096 = List.replicate 4096 0 := by
  unfold digestAB
  rw [List.drop_replicate]

theorem kc_digestAB : keyCode digestAB = 0 := by
  unfold keyCode
  rw [digestAB_len, digestAB_drop, List.head?_replicate]
  norm_num

theorem cph_fileA1 : calculate_partial_hash fileA1 = some digestAB := by
  unfold calculate_partial_hash
  rw [if_pos (show fileA1.sampleOk = true from rfl)]
  rw [show fileA1.content = contentA from rfl, partialDigest_contentA]

theorem cph_fileA2 : calculate_partial_hash fileA2 = some digestAB := by
  unfold calculate_partial_hash
  rw [if_pos (show fileA2.sampleOk = true from rfl)]
  rw [show fileA2.content = contentA from rfl, partialDigest_contentA]

theorem cph_fileB1 : calculate_partial_hash fileB1 = some digestAB := by
  unfold calculate_partial_hash
  rw [if_pos (show fileB1.sampleOk = true from rfl)]
  rw [show fileB1.content = contentB from rfl, partialDigest_contentB]

theorem cph_fileB2 : calculate_partial_hash fileB2 = some digestAB := by
  unfold calculate_partial_hash
  rw [if_pos (show fileB2.sampleOk = true from rfl)]
  rw [show fileB2.content = contentB from rfl, partialDigest_contentB]

theorem cph_fileC1 : calculate_partial_hash fileC1 = some digestAB := by
  unfold calculate_partial_hash
  rw [if_pos (show fileC1.sampleOk = true from rfl)]
  rw [show fileC1.content = contentC from rfl, partialDigest_contentC]

theorem cph_fileC2 : calculate_partial_hash fileC2 = some digestAB := by
  unfold calculate_partial_hash
  rw [if_pos (show fileC2.sampleOk = true from rfl)]
  rw [show fileC2.content = contentC from rfl, partialDigest_contentC]

theorem cph_fileS1 : calculate_partial_hash fileS1 = some [0] := by rfl

theorem cph_fileS2 : calculate_partial_hash fileS2 = some [0] := by rfl

theorem cph_fileS3 : calculate_partial_hash fileS3 = some [1] := by rfl

theorem cph_fileS4 : calculate_partial_hash fileS4 = some [1] := by rfl



theorem scan_shrink : scanRecords shrinkCexEntries
    = [(8193, fileA1), (8193, fileA2), (8193, fileB1), (8193, fileB2),
       (1, fileS1), (1, fileS2), (1, fileS3), (1, fileS4)] := by
  unfold scanRecords shrinkCexEntries
  simp [Except.toOption, fileA1, fileA2, fileB1, fileB2, fileS1, fileS2,
    fileS3, fileS4, contentA_len, contentB_len]



theorem gbs_shrink : group_by_size shrinkCexEntries
    = [(8193, [fileA1, fileA2, fileB1, fileB2]),
       (1, [fileS1, fileS2, fileS3, fileS4])] := by
  unfold group_by_size
  rw [scan_shrink]
  rfl

theorem pd_shrink : potentialDuplicates shrinkCexEntries
    = [(8193, [fileA1, fileA2, fileB1, fileB2]),
       (1, [fileS1, fileS2, fileS3, fileS4])] := by
  unfold potentialDuplicates
  rw [gbs_shrink]
  rfl

theorem pp_shrink : partialPairs (potentialDuplicates shrinkCexEntries)
    = [(digestAB, fileA1), (digestAB, fileA2), (digestAB, fileB1), (digestAB, fileB2),
       ([0], fileS1), ([0], fileS2), ([1], fileS3), ([1], fileS4)] := by
  rw [pd_shrink]
  simp [partialPairs, cph_fileA1, cph_fileA2, cph_fileB1, cph_fileB2,
    cph_fileS1, cph_fileS2, cph_fileS3, cph_fileS4]



theorem injOn_of_code {K1 K2 : Type} (c : K1 → K2) {ks l : List K1}
    (hsub : ∀ a ∈ l, a ∈ ks)
    (hpw : List.Pairwise (fun a b => c a ≠ c b) ks) :
    ∀ a ∈ l, ∀ b ∈ l, c a = c b → a = b := by
  intro a ha b hb h
  by_contra hne
  exact (hpw.forall (by intro x y hxy he; exact hxy he.symm)) (hsub a ha) (hsub b hb) hne h

theorem pgv_shrink : (partialGroupsOf shrinkCexEntries).map Prod.snd
    = [[fileA1, fileA2, fileB1, fileB2], [fileS1, fileS2], [fileS3, fileS4]] := by
  unfold partialGroupsOf
  rw [filter_by_partial_hash_values, pp_shrink]
  have hsub : ∀ a ∈ ([(digestAB, fileA1), (digestAB, fileA2), (digestAB, fileB1),
      (digestAB, fileB2), ([0], fileS1), ([0], fileS2), ([1], fileS3),
      ([1], fileS4)].map Prod.fst), a ∈ [digestAB, [0], [1]] := by
    intro a ha
    simp only [List.map_cons, List.map_nil] at ha
    fin_cases ha <;> simp
  have hpw : List.Pairwise (fun a b => keyCode a ≠ keyCode b) [digestAB, [0], [1]] := by
    simp [List.pairwise_cons, kc_digestAB, kc_zero, kc_one]
  rw [vgroup_map_key keyCode _ (injOn_of_code keyCode hsub hpw)]
  rw [show ([(digestAB, fileA1), (digestAB, fileA2), (digestAB, fileB1),
      (digestAB, fileB2), ([0], fileS1), ([0], fileS2), ([1], fileS3),
      ([1], fileS4)].map fun p => (keyCode p.1, p.2))
    = [(0, fileA1), (0, fileA2), (0, fileB1), (0, fileB2),
       (4, fileS1), (4, fileS2), (3, fileS3), (3, fileS4)] from by
    simp [kc_digestAB, kc_zero, kc_one]]
  rfl



theorem cfh_fileA1 : calculate_full_hash fileA1 = some contentA := rfl

theorem fp_shrink : fullPairs (partialGroupsOf shrinkCexEntries)
    = [(contentA, fileA1), (contentA, fileA2), (contentB, fileB1), (contentB, fileB2),
       ([0], fileS1), ([0], fileS2), ([1], fileS3), ([1], fileS4)] := by
  rw [fullPairs_eq, pgv_shrink]
  rfl

theorem dg_shrink : dedupGroups shrinkCexEntries
    = [[fileA1, fileA2], [fileB1, fileB2], [fileS1, fileS2], [fileS3, fileS4]] := by
  unfold dedupGroups
  rw [confirm_values, fp_shrink]
  have hsub : ∀ a ∈ ([(contentA, fileA1), (contentA, fileA2), (contentB, fileB1),
      (contentB, fileB2), ([0], fileS1), ([0], fileS2), ([1], fileS3),
      ([1], fileS4)].map Prod.fst), a ∈ [contentA, contentB, [0], [1]] := by
    intro a ha
    simp only [List.map_cons, List.map_nil] at ha
    fin_cases ha <;> simp
  have hpw : List.Pairwise (fun a b => keyCode a ≠ keyCode b)
      [contentA, contentB, [0], [1]] := by
    simp [List.pairwise_cons, kc_contentA, kc_contentB, kc_zero, kc_one]
  rw [vgroup_map_key keyCode _ (injOn_of_code keyCode hsub hpw)]
  rw [show ([(contentA, fileA1), (contentA, fileA2), (contentB, fileB1),
      (contentB, fileB2), ([0], fileS1), ([0], fileS2), ([1], fileS3),
      ([1], fileS4)].map fun p => (keyCode p.1, p.2))
    = [(0, fileA1), (0, fileA2), (1, fileB1), (1, fileB2),
       (4, fileS1), (4, fileS2), (3, fileS3), (3, fileS4)] from by
    simp [kc_contentA, kc_contentB, kc_zero, kc_one]]
  rfl

theorem scan_merge : scanRecords mergeEntries
    = [(8193, fileA1), (8193, fileA2), (8194, fileC1), (8194, fileC2)] := by
  unfold scanRecords mergeEntries
  simp [Except.toOption, fileA1, fileA2, fileC1, fileC2, contentA_len, contentC_len]

theorem pd_merge : potentialDuplicates mergeEntries
    = [(8193, [fileA1, fileA2]), (8194, [fileC1, fileC2])] := by
  unfold potentialDuplicates group_by_size
  rw [scan_merge]
  rfl

theorem pp_merge : partialPairs (potentialDuplicates mergeEntries)
    = [(digestAB, fileA1), (digestAB, fileA2), (digestAB, fileC1), (digestAB, fileC2)] := by
  rw [pd_merge]
  simp [partialPairs, cph_fileA1, cph_fileA2, cph_fileC1, cph_fileC2]

theorem pgv_merge : (partialGroupsOf mergeEntries).map Prod.snd
    = [[fileA1, fileA2, fileC1, fileC2]] := by
  unfold partialGroupsOf
  rw [filter_by_partial_hash_values, pp_merge]
  have hsub : ∀ a ∈ ([(digestAB, fileA1), (digestAB, fileA2), (digestAB, fileC1),
      (digestAB, fileC2)].map Prod.fst), a ∈ [digestAB] := by
    intro a ha
    simp only [List.map_cons, List.map_nil] at ha
    fin_cases ha <;> simp
  have hpw : List.Pairwise (fun a b => keyCode a ≠ keyCode b) [digestAB] := by
    simp
  rw [vgroup_map_key keyCode _ (injOn_of_code keyCode hsub hpw)]
  rw [show ([(digestAB, fileA1), (digestAB, fileA2), (digestAB, fileC1),
      (digestAB, fileC2)].map fun p => (keyCode p.1, p.2))
    = [(0, fileA1), (0, fileA2), (0, fileC1), (0, fileC2)] from by
    simp [kc_digestAB]]
  rfl

theorem fp_merge : fullPairs (partialGroupsOf mergeEntries)
    = [(contentA, fileA1), (contentA, fileA2), (contentC, fileC1), (contentC, fileC2)] := by
  rw [fullPairs_eq, pgv_merge]
  rfl

theorem dg_merge : dedupGroups mergeEntries = [[fileA1, fileA2], [fileC1, fileC2]] := by
  unfold dedupGroups
  rw [confirm_values, fp_merge]
  have hsub : ∀ a ∈ ([(contentA, fileA1), (contentA, fileA2), (contentC, fileC1),
      (contentC, fileC2)].map Prod.fst), a ∈ [contentA, contentC] := by
    intro a ha
    simp only [List.map_cons, List.map_nil] at ha
    fin_cases ha <;> simp
  have hpw : List.Pairwise (fun a b => keyCode a ≠ keyCode b) [contentA, contentC] := by
    simp [List.pairwise_cons, kc_contentA, kc_contentC]
  rw [vgroup_map_key keyCode _ (injOn_of_code keyCode hsub hpw)]
  rw [show ([(contentA, fileA1), (contentA, fileA2), (contentC, fileC1),
      (contentC, fileC2)].map fun p => (keyCode p.1, p.2))
    = [(0, fileA1), (0, fileA2), (2, fileC1), (2, fileC2)] from by
    simp [kc_contentA, kc_contentC]]
  rfl

theorem sampleOk_of_cph_some {f : FSFile} {h : List Nat}
    (hcp : calculate_partial_hash f = some h) : f.sampleOk = true := by
  by_cases hs : f.sampleOk = true
  · exact hs
  · unfold calculate_partial_hash at hcp
    simp [hs] at hcp

theorem mem_partialGroups_provenance {entries : List (Except Unit FSFile)}
    {h : List Nat} {G : List FSFile} {f : FSFile}
    (hG : (h, G) ∈ partialGroupsOf entries) (hf : f ∈ G) :
    (f.content.length, f) ∈ scanRecords entries ∧ f.sampleOk = true ∧
      calculate_partial_hash f = some h ∧
      ∃ G2, (f.content.length, G2) ∈ potentialDuplicates entries ∧ f ∈ G2 := by
  rcases mem_filter_by_partial_hash.1 hG with ⟨hmem, -⟩
  have hpair := mem_of_mem_groupPairs hmem hf
  rcases mem_partialPairs.1 hpair with ⟨s, G2, hsG, hfG, hcp⟩
  rcases mem_potentialDuplicates.1 hsG with ⟨hgs, hlen⟩
  have hsr := mem_of_mem_groupPairs hgs hfG
  have hsize : s = f.content.length := (mem_scanRecords.1 hsr).2.2.2.2
  subst hsize
  exact ⟨hsr, sampleOk_of_cph_some hcp, hcp,
    G2, mem_potentialDuplicates.2 ⟨hgs, hlen⟩, hfG⟩

theorem mem_dedupGroups_provenance {entries : List (Except Unit FSFile)}
    {G : List FSFile} {f : FSFile}
    (hG : G ∈ dedupGroups entries) (hf : f ∈ G) :
    (f.content.length, f) ∈ scanRecords entries ∧ f.fullOk = true ∧
      ∃ k G2, (k, G2) ∈ partialGroupsOf entries ∧ f ∈ G2 := by
  have hG2 : G ∈ confirm_with_full_hash (partialGroupsOf entries) := hG
  rcases mem_confirm_with_full_hash.1 hG2 with ⟨h, hmem, -⟩
  have hpair := mem_of_mem_groupPairs hmem hf
  rcases mem_fullPairs.1 hpair with ⟨⟨k, G2, hkG, hfG⟩, hok, -⟩
  exact ⟨(mem_partialGroups_provenance hkG hfG).1, hok, k, G2, hkG, hfG⟩

theorem dedupGroups_content_eq {entries : List (Except Unit FSFile)}
    {G : List FSFile} (hG : G ∈ dedupGroups entries) :
    ∀ f ∈ G, ∀ g ∈ G, f.content = g.content := by
  intro f hf g hg
  have hG2 : G ∈ confirm_with_full_hash (partialGroupsOf entries) := hG
  rcases mem_confirm_with_full_hash.1 hG2 with ⟨h, hmem, -⟩
  have hfp := mem_of_mem_groupPairs hmem hf
  have hgp := mem_of_mem_groupPairs hmem hg
  have h1 := (mem_fullPairs.1 hfp).2.2
  have h2 := (mem_fullPairs.1 hgp).2.2
  rw [← h1, ← h2]

theorem dedupGroups_two_le {entries : List (Except Unit FSFile)}
    {G : List FSFile} (hG : G ∈ dedupGroups entries) : 2 ≤ G.length := by
  have hG2 : G ∈ confirm_with_full_hash (partialGroupsOf entries) := hG
  rcases mem_confirm_with_full_hash.1 hG2 with ⟨h, -, hlen⟩
  omega

theorem dedupRun_fst (entries : List (Except Unit FSFile)) :
    (dedupRun entries).1 = dedupGroups entries := by
  simp only [dedupRun]



theorem dedupRun_snd (entries : List (Except Unit FSFile)) :
    (dedupRun entries).2 =
      ⟨((group_by_size entries).map fun p => p.2.length).sum,
       ((group_by_size entries).map fun p => p.1 * p.2.length).sum,
       (potentialDuplicates entries).length,
       (partialGroupsOf entries).length,
       (dedupGroups entries).length,
       ((dedupGroups entries).map fun g => g.length).sum,
       ((dedupGroups entries).map groupReclaimable).sum,
       ((potentialDuplicates entries).map fun p =>
         min p.1 (2 * PARTIAL_HASH_SIZE) * p.2.length).sum,
       (((partialGroupsOf entries).flatMap fun p => p.2).filterMap fun f =>
         if f.scanOk then some f.content.length else none).sum⟩ := by
  simp only [dedupRun]



theorem filterMap_restrict {α β : Type} (p : α → Bool) (f : α → Option β)
    (hf : ∀ a, p a = false → f a = none) (l : List α) :
    (l.filter p).filterMap f = l.filterMap f := by
  induction l with
  | nil => rfl
  | cons a l ih =>
    cases hp : p a with
    | true => rw [List.filter_cons_of_pos hp, List.filterMap_cons, List.filterMap_cons, ih]
    | false =>
      rw [List.filter_cons_of_neg (by simp [hp]), List.filterMap_cons, hf a hp, ih]

theorem partialDigest_spec (c : List Nat) :
    (c.length ≤ PARTIAL_HASH_SIZE → partialDigest c = c) ∧
    (PARTIAL_HASH_SIZE < c.length →
      partialDigest c = c.take PARTIAL_HASH_SIZE ++
        c.drop (c.length - min PARTIAL_HASH_SIZE (c.length - PARTIAL_HASH_SIZE)) ∧
      PARTIAL_HASH_SIZE ≤ c.length
        - min PARTIAL_HASH_SIZE (c.length - PARTIAL_HASH_SIZE)) ∧
    (partialDigest c).length ≤ c.length := by
  simp only [partialDigest]
  rw [List.length_take]
  by_cases h : PARTIAL_HASH_SIZE < c.length
  · have hmin : min PARTIAL_HASH_SIZE c.length = PARTIAL_HASH_SIZE :=
      Nat.min_eq_left (Nat.le_of_lt h)
    rw [hmin, if_pos h]
    have hts : min PARTIAL_HASH_SIZE (c.length - PARTIAL_HASH_SIZE)
        ≤ c.length - PARTIAL_HASH_SIZE := Nat.min_le_right _ _
    refine ⟨fun hle => absurd h (by omega), fun _ => ⟨rfl, by omega⟩, ?_⟩
    rw [List.length_append, List.length_take, List.length_drop, hmin]
    omega
  · have hle : c.length ≤ PARTIAL_HASH_SIZE := by omega
    have hmin : min PARTIAL_HASH_SIZE c.length = c.length := Nat.min_eq_right hle
    rw [hmin, if_neg (by omega)]
    refine ⟨fun _ => ?_, fun hlt => absurd hlt (by omega), ?_⟩
    · rw [List.append_nil, List.take_of_length_le hle]
    · rw [List.append_nil, List.length_take, hmin]

/-- C5: for a candidate file whose reads succeed, the partial fingerprint is
the digest of: up to `W = 4096` bytes from the start of the file, followed —
only when the file length exceeds the head bytes read — by the last
`min(W, length - head_read)` bytes; when the length is at most `W` the tail
read is skipped and the digest covers exactly the whole content; the tail
window starts at or after the end of the head window and the sampled byte
count never exceeds the file length (no byte contributes twice). -/
theorem C5_partial_sample (f : FSFile) (hok : f.sampleOk = true) :
    (f.content.length ≤ PARTIAL_HASH_SIZE →
      calculate_partial_hash f = some f.content) ∧
    (PARTIAL_HASH_SIZE < f.content.length →
      calculate_partial_hash f
        = some (f.content.take PARTIAL_HASH_SIZE ++
            f.content.drop (f.content.length
              - min PARTIAL_HASH_SIZE (f.content.length - PARTIAL_HASH_SIZE))) ∧
      PARTIAL_HASH_SIZE ≤ f.content.length
          - min PARTIAL_HASH_SIZE (f.content.length - PARTIAL_HASH_SIZE)) ∧
    ∀ s, calculate_partial_hash f = some s → s.length ≤ f.content.length := by
  have hcp : calculate_partial_hash f = some (partialDigest f.content) := by
    unfold calculate_partial_hash
    rw [if_pos hok]
  rcases partialDigest_spec f.content with ⟨h1, h2, h3⟩
  refine ⟨fun hle => by rw [hcp, h1 hle], fun hlt => ⟨by rw [hcp, (h2 hlt).1], (h2 hlt).2⟩, ?_⟩
  intro s hs
  rw [hcp] at hs
  injection hs with hs
  rw [← hs]
  exact h3

/-- Witness for C5 at a concrete three-byte file. -/
theorem C5_partial_sample_witness :
    (FSFile.mk 10 [1, 2, 3] true true true true).sampleOk = true ∧
    calculate_partial_hash (FSFile.mk 10 [1, 2, 3] true true true true)
      = some [1, 2, 3] :=
  ⟨rfl, (C5_partial_sample (FSFile.mk 10 [1, 2, 3] true true true true) rfl).1 (by decide)⟩



/-- C2: every final DuplicateGroup has cardinality at least two and all of
its members share the same full-content digest; with the hash modelled
collision-free, files with distinct content never co-occur in any final
DuplicateGroup, even if their sizes and head/tail samples coincide. -/
theorem C2_final_group_soundness (entries : List (Except Unit FSFile)) :
    (∀ G ∈ (dedupRun entries).1, 2 ≤ G.length ∧
      ∀ f ∈ G, ∀ g ∈ G,
        calculate_full_hash f = calculate_full_hash g ∧ f.content = g.content) ∧
    ∀ f g : FSFile, f.content ≠ g.content → ¬ inSameDuplicateGroup entries f g := by
  constructor
  · intro G hG
    rw [dedupRun_fst] at hG
    refine ⟨dedupGroups_two_le hG, ?_⟩
    intro f hf g hg
    have hc := dedupGroups_content_eq hG f hf g hg
    have hfo := (mem_dedupGroups_provenance hG hf).2.1
    have hgo := (mem_dedupGroups_provenance hG hg).2.1
    constructor
    · unfold calculate_full_hash
      rw [if_pos hfo, if_pos hgo, hc]
    · exact hc
  · rintro f g hne ⟨G, hG, hf, hg⟩
    exact hne (dedupGroups_content_eq hG f hf g hg)

/-- Witness for C2: two files with distinct one-byte contents are never
grouped together. -/
theorem C2_final_group_soundness_witness :
    ¬ inSameDuplicateGroup
        [Except.ok ⟨20, [7], true, true, true, true⟩,
         Except.ok ⟨21, [5], true, true, true, true⟩]
        ⟨20, [7], true, true, true, true⟩ ⟨21, [5], true, true, true, true⟩ :=
  (C2_final_group_soundness
    [Except.ok ⟨20, [7], true, true, true, true⟩,
     Except.ok ⟨21, [5], true, true, true, true⟩]).2 _ _ (by decide)

/-- C7: a file of size zero never appears in any size group, partial-hash
group, or final DuplicateGroup — zero-byte files are excluded at scan time,
before any grouping. -/
theorem C7_no_zero_size (entries : List (Except Unit FSFile)) :
    (∀ p ∈ group_by_size entries, ∀ f ∈ p.2, 0 < f.content.length) ∧
    (∀ p ∈ partialGroupsOf entries, ∀ f ∈ p.2, 0 < f.content.length) ∧
    (∀ G ∈ (dedupRun entries).1, ∀ f ∈ G, 0 < f.content.length) := by
  refine ⟨?_, ?_, ?_⟩
  · intro p hp f hf
    have hpair : (p.1, f) ∈ scanRecords entries :=
      mem_of_mem_groupPairs (show (p.1, p.2) ∈ groupPairs (scanRecords entries) from hp) hf
    exact (mem_scanRecords.1 hpair).2.2.2.1
  · intro p hp f hf
    have h := mem_partialGroups_provenance
      (show (p.1, p.2) ∈ partialGroupsOf entries from hp) hf
    exact (mem_scanRecords.1 h.1).2.2.2.1
  · intro G hG f hf
    rw [dedupRun_fst] at hG
    exact (mem_scanRecords.1 (mem_dedupGroups_provenance hG hf).1).2.2.2.1

/-- Witness for C7 at a concrete run with one duplicate pair. -/
theorem C7_no_zero_size_witness :
    0 < (FSFile.mk 22 [9] true true true true).content.length :=
  (C7_no_zero_size [Except.ok ⟨22, [9], true, true, true, true⟩,
      Except.ok ⟨23, [9], true, true, true, true⟩]).2.2
    [⟨22, [9], true, true, true, true⟩, ⟨23, [9], true, true, true, true⟩]
    (by decide) _ (by decide)

/-- C8: the reclaimable_bytes metric equals the sum, over the final
DuplicateGroups, of the members' common size times (group cardinality minus
one); all members of a group indeed share the size of its first member. -/
theorem C8_reclaimable_bytes (entries : List (Except Unit FSFile)) :
    (dedupRun entries).2.reclaimable_bytes
      = (((dedupRun entries).1).map fun G =>
          (G.headD default).content.length * (G.length - 1)).sum ∧
    ∀ G ∈ (dedupRun entries).1, ∀ f ∈ G,
      f.content.length = (G.headD default).content.length := by
  have hmain : ∀ G ∈ dedupGroups entries,
      groupReclaimable G = (G.headD default).content.length * (G.length - 1) := by
    intro G hG
    match G with
    | [] =>
      have := dedupGroups_two_le hG
      simp at this
    | f :: t =>
      have hscan : f.scanOk = true :=
        (mem_scanRecords.1
          (mem_dedupGroups_provenance hG (List.mem_cons_self f t)).1).2.2.1
      simp [groupReclaimable, hscan]
  constructor
  · simp only [dedupRun]
    exact congrArg List.sum (List.map_congr_left hmain)
  · intro G hG f hf
    rw [dedupRun_fst] at hG
    cases G with
    | nil => cases hf
    | cons g t =>
      have hce := dedupGroups_content_eq hG f hf g (List.mem_cons_self g t)
      simp only [List.headD_cons]
      rw [hce]

/-- Witness for C8's per-group size claim at a concrete run. -/
theorem C8_reclaimable_bytes_witness :
    (FSFile.mk 25 [4, 4] true true true true).content.length
      = (([⟨24, [4, 4], true, true, true, true⟩,
          ⟨25, [4, 4], true, true, true, true⟩] : List FSFile).headD default).content.length :=
  (C8_reclaimable_bytes [Except.ok ⟨24, [4, 4], true, true, true, true⟩,
      Except.ok ⟨25, [4, 4], true, true, true, true⟩]).2
    [⟨24, [4, 4], true, true, true, true⟩, ⟨25, [4, 4], true, true, true, true⟩]
    (by decide) _ (by decide)



/-- C6: an open/seek/read failure for one file at the partial-hash or
full-hash stage removes only that file: each stage's output is unchanged if
the failing files are deleted from its input beforehand, no failing file ever
appears in a stage's output, a group thereby reduced below two members is
dropped by the same cardinality filter as any other non-duplicate, and the
run never surfaces an error to the caller. -/
theorem C6_per_file_failure_isolated :
    (∀ sg : List (Nat × List FSFile),
      filter_by_partial_hash sg
        = filter_by_partial_hash (sg.map fun p => (p.1, p.2.filter fun f => f.sampleOk)) ∧
      ∀ p ∈ filter_by_partial_hash sg, ∀ f ∈ p.2, f.sampleOk = true) ∧
    (∀ phg : List (List Nat × List FSFile),
      confirm_with_full_hash phg
        = confirm_with_full_hash (phg.map fun p => (p.1, p.2.filter fun f => f.fullOk)) ∧
      (∀ G ∈ confirm_with_full_hash phg, ∀ f ∈ G, f.fullOk = true) ∧
      ∀ G ∈ confirm_with_full_hash phg, 2 ≤ G.length) ∧
    ∀ entries : List (Except Unit FSFile),
      mainRun entries = Except.ok (dedupRun entries) := by
  refine ⟨?_, ?_, fun entries => rfl⟩
  · intro sg
    constructor
    · have hpp : partialPairs (sg.map fun p => (p.1, p.2.filter fun f => f.sampleOk))
          = partialPairs sg := by
        unfold partialPairs
        rw [List.flatMap_def, List.flatMap_def, List.map_map]
        apply congrArg List.flatten
        apply List.map_congr_left
        intro p _
        exact filterMap_restrict _ _
          (fun a ha => by unfold calculate_partial_hash; simp [ha]) p.2
      unfold filter_by_partial_hash
      rw [hpp]
    · intro p hp f hf
      rcases mem_filter_by_partial_hash.1 hp with ⟨hmem, -⟩
      have hpair := mem_of_mem_groupPairs
        (show (p.1, p.2) ∈ groupPairs (partialPairs sg) from hmem) hf
      rcases mem_partialPairs.1 hpair with ⟨-, -, -, -, hcp⟩
      exact sampleOk_of_cph_some hcp
  · intro phg
    refine ⟨?_, ?_, ?_⟩
    · have hfp : fullPairs (phg.map fun p => (p.1, p.2.filter fun f => f.fullOk))
          = fullPairs phg := by
        rw [fullPairs_eq, fullPairs_eq]
        have hv : (phg.map fun p => (p.1, p.2.filter fun f => f.fullOk)).map Prod.snd
            = phg.map fun p => p.2.filter fun f => f.fullOk := by
          rw [List.map_map]
          rfl
        rw [hv, List.filterMap_flatten, List.filterMap_flatten, List.map_map, List.map_map]
        apply congrArg List.flatten
        apply List.map_congr_left
        intro p _
        exact filterMap_restrict _ _
          (fun a ha => by unfold calculate_full_hash; simp [ha]) p.2
      unfold confirm_with_full_hash
      rw [hfp]
    · intro G hG f hf
      rcases mem_confirm_with_full_hash.1 hG with ⟨h, hmem, -⟩
      have hpair := mem_of_mem_groupPairs hmem hf
      exact (mem_fullPairs.1 hpair).2.1
    · intro G hG
      rcases mem_confirm_with_full_hash.1 hG with ⟨-, -, hlen⟩
      omega

/-- Witness for C6 at a one-group input with one failing file: the group of
survivors is unchanged when the failing file is pre-deleted. -/
theorem C6_per_file_failure_isolated_witness :
    (FSFile.mk 31 [3] true true true true).fullOk = true :=
  (C6_per_file_failure_isolated.2.1
      [([3], [⟨30, [3], true, true, true, false⟩, ⟨31, [3], true, true, true, true⟩,
              ⟨32, [3], true, true, true, true⟩])]).2.1
    [⟨31, [3], true, true, true, true⟩, ⟨32, [3], true, true, true, true⟩]
    (by decide) _ (by decide)



/-- C3 (amended): group counts do not shrink monotonically, but membership
does: every file in a final DuplicateGroup belongs to some partial-hash
group of the run, and every file in a partial-hash group belongs to some
candidate size group — later stages never introduce new files. -/
theorem C3_membership_shrink (entries : List (Except Unit FSFile)) :
    (∀ G ∈ (dedupRun entries).1, ∀ f ∈ G, ∃ p ∈ partialGroupsOf entries, f ∈ p.2) ∧
    ∀ p ∈ partialGroupsOf entries, ∀ f ∈ p.2, ∃ q ∈ potentialDuplicates entries, f ∈ q.2 := by
  constructor
  · intro G hG f hf
    rw [dedupRun_fst] at hG
    rcases (mem_dedupGroups_provenance hG hf).2.2 with ⟨k, G2, hkG, hfG⟩
    exact ⟨(k, G2), hkG, hfG⟩
  · intro p hp f hf
    rcases (mem_partialGroups_provenance
      (show (p.1, p.2) ∈ partialGroupsOf entries from hp) hf).2.2.2 with ⟨G2, hG2, hfG2⟩
    exact ⟨(f.content.length, G2), hG2, hfG2⟩

/-- Witness for C3's amended membership statement at a concrete run. -/
theorem C3_membership_shrink_witness :
    ∃ q ∈ potentialDuplicates [Except.ok ⟨40, [8], true, true, true, true⟩,
        Except.ok ⟨41, [8], true, true, true, true⟩],
      (FSFile.mk 40 [8] true true true true) ∈ q.2 :=
  (C3_membership_shrink [Except.ok ⟨40, [8], true, true, true, true⟩,
      Except.ok ⟨41, [8], true, true, true, true⟩]).2
    ([8], [⟨40, [8], true, true, true, true⟩, ⟨41, [8], true, true, true, true⟩])
    (by decide) _ (by decide)

/-- C3 counterexample: at a concrete input with two candidate size groups,
the run reports candidate_groups = 2, partial_groups = 3 and
duplicate_groups = 4, refuting both claimed inequalities
duplicate_groups ≤ partial_groups and partial_groups ≤ candidate_groups. -/
theorem C3_counterexample :
    ¬ ((dedupRun shrinkCexEntries).2.duplicate_groups
          ≤ (dedupRun shrinkCexEntries).2.partial_groups ∧
       (dedupRun shrinkCexEntries).2.partial_groups
          ≤ (dedupRun shrinkCexEntries).2.candidate_groups) := by
  have h1 : (dedupRun shrinkCexEntries).2.candidate_groups = 2 := by
    simp only [dedupRun]
    rw [pd_shrink]
    rfl
  have h2 : (dedupRun shrinkCexEntries).2.partial_groups = 3 := by
    simp only [dedupRun]
    rw [← List.length_map (partialGroupsOf shrinkCexEntries) Prod.snd, pgv_shrink]
    rfl
  have h3 : (dedupRun shrinkCexEntries).2.duplicate_groups = 4 := by
    simp only [dedupRun]
    rw [dg_shrink]
    rfl
  rw [h1, h2, h3]
  omega

/-- C4 counterexample: for a root whose traversal yields only an error (for
example a nonexistent root path), the run does not fail — it completes
successfully with an empty group list and all-zero metrics. -/
theorem C4_counterexample :
    mainRun [Except.error ()] = Except.ok ([], ⟨0, 0, 0, 0, 0, 0, 0, 0, 0⟩) := by
  rfl

/-- C4 (amended): when every walk entry is an error — in particular when the
root does not exist or is entirely inaccessible — all errors are silently
discarded by `filter_map(|e| e.ok())`; the run completes without any error,
returning no duplicate groups and all-zero metrics rather than propagating a
fatal error. -/
theorem C4_root_failure_completes (entries : List (Except Unit FSFile))
    (h : ∀ e ∈ entries, e.toOption = none) :
    mainRun entries = Except.ok ([], ⟨0, 0, 0, 0, 0, 0, 0, 0, 0⟩) := by
  have hsr : scanRecords entries = [] := by
    unfold scanRecords
    rw [List.filterMap_eq_nil_iff.2 h]
    rfl
  have hgs : group_by_size entries = [] := by
    unfold group_by_size
    rw [hsr]
    rfl
  have hpd : potentialDuplicates entries = [] := by
    unfold potentialDuplicates
    rw [hgs]
    rfl
  have hpg : partialGroupsOf entries = [] := by
    unfold partialGroupsOf filter_by_partial_hash
    rw [hpd]
    rfl
  have hdg : dedupGroups entries = [] := by
    unfold dedupGroups confirm_with_full_hash
    rw [hpg]
    rfl
  have h2 : (dedupRun entries).2 = ⟨0, 0, 0, 0, 0, 0, 0, 0, 0⟩ := by
    simp only [dedupRun]
    rw [hgs, hpd, hpg, hdg]
    rfl
  have h1 : (dedupRun entries).1 = [] := by
    rw [dedupRun_fst, hdg]
  have hpair : dedupRun entries = ([], ⟨0, 0, 0, 0, 0, 0, 0, 0, 0⟩) := by
    rw [← h1, ← h2]
  unfold mainRun
  rw [hpair]

/-- Witness for the amended C4 at a two-error walk stream. -/
theorem C4_root_failure_completes_witness :
    mainRun [Except.error (), Except.error ()]
      = Except.ok ([], ⟨0, 0, 0, 0, 0, 0, 0, 0, 0⟩) :=
  C4_root_failure_completes [Except.error (), Except.error ()] (by decide)



/-- C1: any two distinct regular files discovered under the root with
byte-identical content of positive size, for which no metadata or content
read fails, produce equal partial fingerprints and end up together in the
same final DuplicateGroup, regardless of file name, depth (the path
identifier is arbitrary) or discovery order (the entry list is arbitrary). -/
theorem C1_identical_content_grouped (entries : List (Except Unit FSFile))
    (f g : FSFile)
    (hfe : Except.ok f ∈ entries) (hge : Except.ok g ∈ entries)
    (hcontent : f.content = g.content) (hpos : 0 < f.content.length)
    (hpath : f.path ≠ g.path)
    (hffile : f.isFile = true) (hgfile : g.isFile = true)
    (hfscan : f.scanOk = true) (hgscan : g.scanOk = true)
    (hfsample : f.sampleOk = true) (hgsample : g.sampleOk = true)
    (hffull : f.fullOk = true) (hgfull : g.fullOk = true) :
    calculate_partial_hash f = calculate_partial_hash g ∧
    inSameDuplicateGroup entries f g := by
  have hne : f ≠ g := fun h => hpath (congrArg FSFile.path h)
  have hcph : calculate_partial_hash f = calculate_partial_hash g := by
    unfold calculate_partial_hash
    rw [if_pos hfsample, if_pos hgsample, hcontent]
  refine ⟨hcph, ?_⟩
  -- stage 1: both files are scanned into the same size class
  have hsrf : (f.content.length, f) ∈ scanRecords entries :=
    mem_scanRecords.2 ⟨hfe, hffile, hfscan, hpos, rfl⟩
  have hsrg : (f.content.length, g) ∈ scanRecords entries :=
    mem_scanRecords.2 ⟨hge, hgfile, hgscan, hcontent ▸ hpos, by rw [hcontent]⟩
  rcases groupPairs_mem_of_mem hsrf with ⟨G, hG, hfG⟩
  have hgG : g ∈ G := by
    rcases mem_groupPairs.1 hG with ⟨-, rfl⟩
    exact List.mem_map.2 ⟨(f.content.length, g), List.mem_filter.2 ⟨hsrg, by simp⟩, rfl⟩
  have hGlen : 1 < G.length := by
    have h2 : 2 ≤ (scanRecords entries).countP
        fun p => decide (p.1 = f.content.length) :=
      two_le_countP_of_two_mem hsrf hsrg
        (fun h => hne (congrArg Prod.snd h)) (by simp) (by simp)
    have := length_of_mem_groupPairs hG
    omega
  have hpd : (f.content.length, G) ∈ potentialDuplicates entries :=
    mem_potentialDuplicates.2 ⟨hG, hGlen⟩
  -- stage 2: both files produce the same partial digest
  have hcpf : calculate_partial_hash f = some (partialDigest f.content) := by
    unfold calculate_partial_hash
    rw [if_pos hfsample]
  have hcpg : calculate_partial_hash g = some (partialDigest f.content) := by
    rw [← hcph]
    exact hcpf
  have hppf : (partialDigest f.content, f) ∈ partialPairs (potentialDuplicates entries) :=
    mem_partialPairs.2 ⟨f.content.length, G, hpd, hfG, hcpf⟩
  have hppg : (partialDigest f.content, g) ∈ partialPairs (potentialDuplicates entries) :=
    mem_partialPairs.2 ⟨f.content.length, G, hpd, hgG, hcpg⟩
  rcases groupPairs_mem_of_mem hppf with ⟨P, hP, hfP⟩
  have hgP : g ∈ P := by
    rcases mem_groupPairs.1 hP with ⟨-, rfl⟩
    exact List.mem_map.2 ⟨(partialDigest f.content, g),
      List.mem_filter.2 ⟨hppg, by simp⟩, rfl⟩
  have hPlen : 1 < P.length := by
    have h2 : 2 ≤ (partialPairs (potentialDuplicates entries)).countP
        fun p => decide (p.1 = partialDigest f.content) :=
      two_le_countP_of_two_mem hppf hppg
        (fun h => hne (congrArg Prod.snd h)) (by simp) (by simp)
    have := length_of_mem_groupPairs hP
    omega
  have hPG : (partialDigest f.content, P) ∈ partialGroupsOf entries :=
    mem_filter_by_partial_hash.2 ⟨hP, hPlen⟩
  -- stage 3: both files share the full digest
  have hfpf : (f.content, f) ∈ fullPairs (partialGroupsOf entries) :=
    mem_fullPairs.2 ⟨⟨partialDigest f.content, P, hPG, hfP⟩, hffull, rfl⟩
  have hfpg : (f.content, g) ∈ fullPairs (partialGroupsOf entries) :=
    mem_fullPairs.2 ⟨⟨partialDigest f.content, P, hPG, hgP⟩, hgfull, hcontent⟩
  have hcount : 1 < (fullPairs (partialGroupsOf entries)).countP
      fun p => decide (p.1 = f.content) := by
    have h2 : 2 ≤ (fullPairs (partialGroupsOf entries)).countP
        fun p => decide (p.1 = f.content) :=
      two_le_countP_of_two_mem hfpf hfpg
        (fun h => hne (congrArg Prod.snd h)) (by simp) (by simp)
    omega
  exact inSameDuplicateGroup_iff.2 ⟨f.content, hfpf, hfpg, hcount⟩

/-- Witness for C1: two one-byte duplicates at a concrete run. -/
theorem C1_identical_content_grouped_witness :
    inSameDuplicateGroup
      [Except.ok ⟨50, [6], true, true, true, true⟩,
       Except.ok ⟨51, [6], true, true, true, true⟩]
      ⟨50, [6], true, true, true, true⟩ ⟨51, [6], true, true, true, true⟩ :=
  (C1_identical_content_grouped
    [Except.ok ⟨50, [6], true, true, true, true⟩,
     Except.ok ⟨51, [6], true, true, true, true⟩]
    ⟨50, [6], true, true, true, true⟩ ⟨51, [6], true, true, true, true⟩
    (List.mem_cons_self _ _) (List.mem_cons_of_mem _ (List.mem_cons_self _ _))
    rfl (by decide) (by decide) rfl rfl rfl rfl rfl rfl rfl rfl).2



theorem scanRecords_perm {e1 e2 : List (Except Unit FSFile)} (h : e1.Perm e2) :
    (scanRecords e1).Perm (scanRecords e2) := by
  unfold scanRecords
  exact ((h.filterMap _).filter _).filterMap _

theorem fullPairs_perm_of_entries_perm {e1 e2 : List (Except Unit FSFile)}
    (h : e1.Perm e2) :
    (fullPairs (partialGroupsOf e1)).Perm (fullPairs (partialGroupsOf e2)) := by
  have hsr := scanRecords_perm h
  have hc1 := big_flatten_perm_of_perm (V := FSFile) hsr
  have hpp : (partialPairs (potentialDuplicates e1)).Perm
      (partialPairs (potentialDuplicates e2)) := by
    rw [partialPairs_eq, partialPairs_eq]
    unfold potentialDuplicates group_by_size
    exact hc1.filterMap _
  have hs3 := big_flatten_perm_of_perm (V := FSFile) hpp
  rw [fullPairs_eq, fullPairs_eq]
  unfold partialGroupsOf filter_by_partial_hash
  exact hs3.filterMap _

/-- C9: for a fixed set of files, the final DuplicateGroups are
set-equivalent across any two runs and any processing order within stages:
permuting the discovered-entry list (which models every ordering
nondeterminism of the parallel stages and of HashMap iteration) changes
neither which files appear in final groups nor which files share a group. -/
theorem C9_order_independent (e1 e2 : List (Except Unit FSFile))
    (h : e1.Perm e2) (f g : FSFile) :
    inSameDuplicateGroup e1 f g ↔ inSameDuplicateGroup e2 f g := by
  rw [inSameDuplicateGroup_iff, inSameDuplicateGroup_iff]
  have hFP := fullPairs_perm_of_entries_perm h
  constructor
  · rintro ⟨k, h1, h2, h3⟩
    exact ⟨k, hFP.mem_iff.1 h1, hFP.mem_iff.1 h2, by rw [← hFP.countP_eq]; exact h3⟩
  · rintro ⟨k, h1, h2, h3⟩
    exact ⟨k, hFP.mem_iff.2 h1, hFP.mem_iff.2 h2, by rw [hFP.countP_eq]; exact h3⟩

/-- Witness for C9 at a concrete two-file input and its swap. -/
theorem C9_order_independent_witness :
    (inSameDuplicateGroup
        [Except.ok ⟨60, [2], true, true, true, true⟩,
         Except.ok ⟨61, [2], true, true, true, true⟩]
        ⟨60, [2], true, true, true, true⟩ ⟨61, [2], true, true, true, true⟩
      ↔ inSameDuplicateGroup
        [Except.ok ⟨61, [2], true, true, true, true⟩,
         Except.ok ⟨60, [2], true, true, true, true⟩]
        ⟨60, [2], true, true, true, true⟩ ⟨61, [2], true, true, true, true⟩) :=
  C9_order_independent
    [Except.ok ⟨60, [2], true, true, true, true⟩,
     Except.ok ⟨61, [2], true, true, true, true⟩]
    [Except.ok ⟨61, [2], true, true, true, true⟩,
     Except.ok ⟨60, [2], true, true, true, true⟩]
    (List.Perm.swap
      (Except.ok (FSFile.mk 61 [2] true true true true) : Except Unit FSFile)
      (Except.ok (FSFile.mk 60 [2] true true true true)) [])
    (FSFile.mk 60 [2] true true true true) (FSFile.mk 61 [2] true true true true)



/-- C10: the partial-hash stage groups files by digest string alone, not by
(size, digest): at a concrete input with two duplicate pairs of sizes 8193
and 8194 bytes whose first and last 4096 bytes agree, the run has two
candidate size groups but a single partial-hash group containing files of
both sizes — so the stage-3 grouping does not refine the stage-2 size
grouping — and the sizes are separated again only by the full hash, which
yields two content-homogeneous DuplicateGroups. -/
theorem C10_digest_only_grouping :
    (potentialDuplicates mergeEntries).length = 2 ∧
    (partialGroupsOf mergeEntries).length = 1 ∧
    (∃ G ∈ (partialGroupsOf mergeEntries).map Prod.snd,
      fileA1 ∈ G ∧ fileC1 ∈ G ∧ fileA1.content.length ≠ fileC1.content.length) ∧
    (dedupGroups mergeEntries).length = 2 ∧
    ∀ G ∈ dedupGroups mergeEntries, ∀ f ∈ G, ∀ g ∈ G, f.content = g.content := by
  refine ⟨?_, ?_, ?_, ?_, ?_⟩
  · rw [pd_merge]
    rfl
  · rw [← List.length_map (partialGroupsOf mergeEntries) Prod.snd, pgv_merge]
    rfl
  · rw [pgv_merge]
    refine ⟨[fileA1, fileA2, fileC1, fileC2], List.mem_singleton.2 rfl,
      List.mem_cons_self _ _,
      List.mem_cons_of_mem _ (List.mem_cons_of_mem _ (List.mem_cons_self _ _)), ?_⟩
    rw [show fileA1.content = contentA from rfl,
      show fileC1.content = contentC from rfl, contentA_len, contentC_len]
    omega
  · rw [dg_merge]
    rfl
  · intro G hG
    exact dedupGroups_content_eq hG

/-- Witness instantiating the universally quantified part of C10 at the
first resulting group. -/
theorem C10_digest_only_grouping_witness : fileA1.content = fileA2.content :=
  C10_digest_only_grouping.2.2.2.2 [fileA1, fileA2]
    (by rw [dg_merge]; exact List.mem_cons_self _ _)
    fileA1 (List.mem_cons_self _ _)
    fileA2 (List.mem_cons_of_mem _ (List.mem_cons_self _ _))

end DedupRs
